import Mathlib

/-!
Verification of the commit-history segmentation and crate-scoped
change-filtering engine of `cargo-smart-release` (file
`src/command/changelog/git.rs` together with the data model of
`src/command/changelog/commit/history.rs`).

The embedding is shallow: commit identities and object hashes are `Nat`,
tree bytes are modelled by their parsed form (a list of entries, as produced
by `TreeRefIter`), the object database is a partial map from hash to tree,
and the process-wide object-data cache size is threaded explicitly as state.
Fallible operations return `Except`; an error value carries the cache size
at the moment of failure so that (non-)restoration is observable.
-/

namespace SmartRelease

/-- One entry of a git tree, as surfaced by `TreeRefIter`: a filename and the
content hash (`oid`) of the child object. The source compares entries by
`filename` and by `oid` only. -/
structure TreeEntry where
  filename : String
  oid : Nat
deriving DecidableEq, Repr

/-- The parsed form of a commit's root-tree bytes (`tree_data`). -/
abbrev Tree := List TreeEntry

/-- A detached git reference: its full name and the commit identity it
ultimately resolves to after peeling (`r.peeled.expect("already peeled")`). -/
structure Reference where
  name : String
  peeled : Nat
deriving DecidableEq, Repr

/-- `commit::history::Item`: identity, decoded message, and root-tree data of
one retained commit. -/
structure Item where
  id : Nat
  _message : String
  tree_data : Tree
deriving DecidableEq, Repr

/-- `commit::history::Segment`: the boundary reference that opened the segment
(`_head`) and the relevant history items collected into it. -/
structure Segment where
  _head : Reference
  history : List Item
deriving DecidableEq, Repr

/-- `commit::History`: the head reference snapshot and the ordered commit
records produced by the ancestry walk. -/
structure History where
  head : Reference
  items : List Item
deriving DecidableEq, Repr

/-- The `tags_by_commit` map (`BTreeMap<ObjectId, Reference>`), modelled as an
association list whose keys are unique in every reachable state. -/
abbrev TagMap := List (Nat × Reference)

/-- `BTreeMap` lookup keyed by commit identity. -/
def tagFind (m : TagMap) (k : Nat) : Option Reference :=
  (m.find? (fun p => p.1 == k)).map (fun p => p.2)

/-- `BTreeMap::remove` keyed by commit identity. -/
def tagErase (m : TagMap) (k : Nat) : TagMap :=
  m.filter (fun p => !(p.1 == k))

/-- `BTreeMap::insert`: replaces any existing entry for the key (last write
wins). -/
def tagInsert (m : TagMap) (k : Nat) (v : Reference) : TagMap :=
  m.filter (fun p => !(p.1 == k)) ++ [(k, v)]

/-- `BTreeMap::from_iter` over the accepted tag references, keying each
reference by its peeled target commit (`(t, r)` with `t = r.peeled`). -/
def tags_by_commit (refs : List Reference) : TagMap :=
  refs.foldl (fun m r => tagInsert m r.peeled r) []

/-- Direct tree-entry lookup by filename, as done by
`TreeRefIter::from_bytes(..).find(|e| e.filename == comp)`. -/
def findEntry (t : Tree) (comp : String) : Option TreeEntry :=
  t.find? (fun e => e.filename == comp)

/-- The shared relevance decision of both filter paths (lines 148-156 and
179-187 of `git.rs`): relevant when the entry exists only on the current side
or exists on both sides with different hashes. -/
def relevanceDecision : Option TreeEntry → Option TreeEntry → Bool
  | Option.some c, Option.some p => decide (c.oid ≠ p.oid)
  | Option.some _, Option.none => true
  | Option.none, _ => false

/-- The `Filter::Fast` relevance evaluation of one commit against the
next-older item (`items.peek()`). -/
def fastRel (comp : String) (item : Item) (next? : Option Item) : Bool :=
  relevanceDecision (findEntry item.tree_data comp)
    (next?.bind (fun p => findEntry p.tree_data comp))

/-- Modelled from the spec: `TreeRef::lookup_path` of the external repository
access layer is not part of this repository; per the spec it resolves a
component chain by recursively walking nested tree objects, failing when a
nested tree object cannot be fetched from the object database. -/
def lookup_path (objects : Nat → Option Tree) : Tree → List String → Except String (Option TreeEntry)
  | _, [] => Except.ok Option.none
  | t, c :: cs =>
    match cs with
    | [] => Except.ok (findEntry t c)
    | _ :: _ =>
      match findEntry t c with
      | Option.none => Except.ok Option.none
      | Option.some e =>
        match objects e.oid with
        | Option.none => Except.error ("object not found")
        | Option.some sub => lookup_path objects sub cs

/-- The `Filter::Slow` relevance evaluation of one commit: save the cache
size, enlarge it to `1024 * 1024`, resolve both sides by recursive path
lookup, and restore the saved size only after both lookups succeed. A failing
lookup propagates the error with the enlarged cache size still in place. -/
def slowStep (objects : Nat → Option Tree) (comps : List String) (item : Item)
    (next? : Option Item) (cache : Nat) : Except (String × Nat) (Bool × Nat) :=
  let prev := cache
  let enlarged := 1024 * 1024
  match lookup_path objects item.tree_data comps with
  | Except.error e => Except.error (e, enlarged)
  | Except.ok current =>
    match (match next? with
           | Option.some p => lookup_path objects p.tree_data comps
           | Option.none => Except.ok Option.none) with
    | Except.error e => Except.error (e, enlarged)
    | Except.ok parent => Except.ok (relevanceDecision current parent, prev)

/-- The three path-filtering strategies of `ref_segments`. -/
inductive Filter where
  | None : Filter
  | Fast : String → Filter
  | Slow : List String → Filter

/-- The single linear pass of `ref_segments` (lines 134-200 of `git.rs`):
walk the history items with a lookahead of one, close the accumulating
segment whenever the commit is a key of the tag map (opening a new segment
that unconditionally contains the tag-target commit), and otherwise append
the commit to the accumulating segment exactly when the active filter deems
it relevant. Returns the emitted segments (final segment included), the
leftover tag map, and the final cache size. -/
def segLoop (flt : Filter) (objects : Nat → Option Tree) :
    List Item → TagMap → Segment → Nat → Except (String × Nat) (List Segment × TagMap × Nat)
  | [], tags, seg, cache => Except.ok ([seg], tags, cache)
  | item :: rest, tags, seg, cache =>
    match tagFind tags item.id with
    | Option.some next_ref =>
      match segLoop flt objects rest (tagErase tags item.id)
          { _head := next_ref, history := [item] } cache with
      | Except.error e => Except.error e
      | Except.ok (segs, t, c) => Except.ok (seg :: segs, t, c)
    | Option.none =>
      match flt with
      | Filter.None =>
        segLoop flt objects rest tags { seg with history := seg.history ++ [item] } cache
      | Filter.Fast comp =>
        segLoop flt objects rest tags
          (if fastRel comp item rest.head? then { seg with history := seg.history ++ [item] }
           else seg) cache
      | Filter.Slow comps =>
        match slowStep objects comps item rest.head? cache with
        | Except.error e => Except.error e
        | Except.ok (rel, cache2) =>
          segLoop flt objects rest tags
            (if rel then { seg with history := seg.history ++ [item] } else seg) cache2

/-- `ref_segments` for one package, after the tag map has been built: run the
single pass starting from a head-bounded segment with an empty relevance
list. -/
def ref_segments (objects : Nat → Option Tree) (tagRefs : List Reference) (flt : Filter)
    (history : History) (cache : Nat) : Except (String × Nat) (List Segment × TagMap × Nat) :=
  segLoop flt objects history.items (tags_by_commit tagRefs)
    { _head := history.head, history := [] } cache

/-- The boundary references consumed from the tag map during the pass, in
traversal order of their target commits. -/
def tagBoundaries (tags : TagMap) : List Item → List Reference
  | [] => []
  | item :: rest =>
    match tagFind tags item.id with
    | Option.some r => r :: tagBoundaries (tagErase tags item.id) rest
    | Option.none => tagBoundaries tags rest

/-- One raw ancestor commit as surfaced by the ancestry iterator: identity,
undecoded message bytes, and the identity of its root tree. -/
structure Commit where
  id : Nat
  messageBytes : List Nat
  treeId : Nat
deriving DecidableEq, Repr

/-- Head classification from `repo.head()?.peeled()?.kind`. -/
inductive HeadKind where
  | Detached : Nat → HeadKind
  | Unborn : HeadKind
  | Symbolic : Reference → HeadKind

/-- The repository access layer as seen by `commit_history`: head
classification, the ancestry stream (each element either a commit or an
iteration/decoding error), the object database, and the mutable object-data
cache size. -/
structure Repo where
  head : HeadKind
  ancestors : List (Except String Commit)
  objects : Nat → Option Tree
  cacheSize : Nat

/-- The ancestry loop of `commit_history` (lines 25-49 of `git.rs`): iterator
errors propagate; commits whose message bytes fail to decode are skipped
entirely; for a retained commit the root-tree object is fetched (a missing
object propagates as an error). -/
def buildItems (decode : List Nat → Option String) (objects : Nat → Option Tree) :
    List (Except String Commit) → Except String (List Item)
  | [] => Except.ok []
  | Except.error e :: _ => Except.error e
  | Except.ok c :: rest =>
    match decode c.messageBytes with
    | Option.none => buildItems decode objects rest
    | Option.some msg =>
      match objects c.treeId with
      | Option.none => Except.error ("tree object not found")
      | Option.some data =>
        match buildItems decode objects rest with
        | Except.error e => Except.error e
        | Except.ok items => Except.ok ({ id := c.id, _message := msg, tree_data := data } :: items)

/-- `commit_history` (lines 16-63 of `git.rs`): save the cache size, enlarge
it to `64 * 1024`, classify the head (detached aborts, unborn yields no
history, symbolic proceeds), build the items, and restore the saved cache
size only on the successful completion path. The resulting repository state
is returned alongside the result so cache mutation is observable. -/
def commit_history (decode : List Nat → Option String) (repo : Repo) :
    Repo × Except String (Option History) :=
  let prev := repo.cacheSize
  let repo1 : Repo := { repo with cacheSize := 64 * 1024 }
  match repo1.head with
  | HeadKind.Detached _ => (repo1, Except.error ("Refusing to operate on a detached head."))
  | HeadKind.Unborn => (repo1, Except.ok Option.none)
  | HeadKind.Symbolic r =>
    match buildItems decode repo1.objects repo1.ancestors with
    | Except.error e => (repo1, Except.error e)
    | Except.ok items =>
      ({ repo1 with cacheSize := prev }, Except.ok (Option.some { head := r, items := items }))

/-! ## Helper lemmas -/

/-- Inserting into the tag map makes the inserted reference the one found
under its key. -/
theorem tagFind_tagInsert_self (m : TagMap) (k : Nat) (v : Reference) :
    tagFind (tagInsert m k v) k = Option.some v := by
  unfold tagFind tagInsert
  rw [List.find?_append]
  have h1 : (m.filter (fun p => !(p.1 == k))).find? (fun p => p.1 == k) = Option.none := by
    rw [List.find?_eq_none]
    intro p hp
    have h2 := (List.mem_filter.mp hp).2
    simp only [Bool.not_eq_true'] at h2
    simp [h2]
  simp [h1]

/-- Every entry of `tagInsert m k v` is an entry of `m` or the new pair. -/
theorem mem_tagInsert (m : TagMap) (k : Nat) (v : Reference) (p : Nat × Reference)
    (h : p ∈ tagInsert m k v) : p ∈ m ∨ p = (k, v) := by
  unfold tagInsert at h
  rcases List.mem_append.mp h with h | h
  · exact Or.inl (List.mem_filter.mp h).1
  · simp at h
    exact Or.inr (by cases p; simp_all)

/-- Every entry produced by folding tag insertions comes from the seed map or
is keyed by the peeled target of one of the references. -/
theorem tags_by_commit_aux_mem (refs : List Reference) :
    ∀ (m : TagMap) (p : Nat × Reference),
      p ∈ refs.foldl (fun m r => tagInsert m r.peeled r) m →
      p ∈ m ∨ (p.1 = p.2.peeled ∧ p.2 ∈ refs) := by
  induction refs with
  | nil => intro m p h; exact Or.inl h
  | cons r rs ih =>
    intro m p h
    simp only [List.foldl_cons] at h
    rcases ih (tagInsert m r.peeled r) p h with h1 | h1
    · rcases mem_tagInsert m r.peeled r p h1 with h2 | h2
      · exact Or.inl h2
      · subst h2; exact Or.inr ⟨rfl, List.mem_cons_self r rs⟩
    · exact Or.inr ⟨h1.1, List.mem_cons_of_mem r h1.2⟩

/-- A successful `Filter::Slow` relevance evaluation restores the incoming
cache size. -/
theorem slowStep_ok_cache (objects : Nat → Option Tree) (comps : List String) (item : Item)
    (next? : Option Item) (cache : Nat) (rel : Bool) (c2 : Nat)
    (h : slowStep objects comps item next? cache = Except.ok (rel, c2)) : c2 = cache := by
  unfold slowStep at h
  split at h
  · exact absurd h (by simp)
  · split at h
    · exact absurd h (by simp)
    · simp only [Except.ok.injEq, Prod.mk.injEq] at h
      exact h.2.symm

/-- A successful pass leaves the cache size where it started: every `Slow`
evaluation that completes restores it, and no other step touches it. -/
theorem segLoop_cache_restored (flt : Filter) (objects : Nat → Option Tree) :
    ∀ (items : List Item) (tags : TagMap) (seg : Segment) (cache : Nat)
      (segs : List Segment) (t : TagMap) (c : Nat),
      segLoop flt objects items tags seg cache = Except.ok (segs, t, c) → c = cache := by
  intro items
  induction items with
  | nil =>
    intro tags seg cache segs t c h
    simp only [segLoop, Except.ok.injEq, Prod.mk.injEq] at h
    exact h.2.2.symm
  | cons item rest ih =>
    intro tags seg cache segs t c h
    simp only [segLoop] at h
    split at h
    · split at h
      · simp at h
      · rename_i segs' t' c' heq2
        simp only [Except.ok.injEq, Prod.mk.injEq] at h
        rw [← h.2.2]
        exact ih _ _ _ _ _ _ heq2
    · split at h
      · exact ih _ _ _ _ _ _ h
      · exact ih _ _ _ _ _ _ h
      · split at h
        · simp at h
        · rename_i rel cache2 heq2
          have hc2 : cache2 = cache := slowStep_ok_cache _ _ _ _ _ _ _ heq2
          rw [hc2] at h
          exact ih _ _ _ _ _ _ h

/-! ## Claims -/

/-- C5: `commit_history` classifies the head in exactly three ways: a
detached head aborts with the explicit user-facing error message, an unborn
head yields the non-error no-history result, and a symbolic head is resolved
to its reference and anchors the returned `History`. -/
theorem commit_history_head_classification (decode : List Nat → Option String) (repo : Repo) :
    (∀ idv, repo.head = HeadKind.Detached idv →
      (commit_history decode repo).2 =
        Except.error ("Refusing to operate on a detached head.")) ∧
    (repo.head = HeadKind.Unborn →
      (commit_history decode repo).2 = Except.ok Option.none) ∧
    (∀ r items, repo.head = HeadKind.Symbolic r →
      buildItems decode repo.objects repo.ancestors = Except.ok items →
      (commit_history decode repo).2 =
        Except.ok (Option.some { head := r, items := items })) := by
  refine ⟨?_, ?_, ?_⟩
  · intro idv h
    simp [commit_history, h]
  · intro h
    simp [commit_history, h]
  · intro r items h hb
    simp [commit_history, h, hb]

/-- C5 witness: the three classifications at concrete repositories. -/
theorem commit_history_head_classification_witness :
    ((commit_history (fun _ => Option.none)
        { head := HeadKind.Unborn, ancestors := [], objects := fun _ => Option.none,
          cacheSize := 5 }).2 = Except.ok Option.none) ∧
    ((commit_history (fun _ => Option.none)
        { head := HeadKind.Detached 3, ancestors := [], objects := fun _ => Option.none,
          cacheSize := 5 }).2 = Except.error ("Refusing to operate on a detached head.")) ∧
    ((commit_history (fun _ => Option.none)
        { head := HeadKind.Symbolic { name := ("refs/heads/main"), peeled := 9 },
          ancestors := [], objects := fun _ => Option.none, cacheSize := 5 }).2 =
      Except.ok (Option.some
        { head := { name := ("refs/heads/main"), peeled := 9 }, items := [] })) :=
  ⟨(commit_history_head_classification _ _).2.1 rfl,
   (commit_history_head_classification _ _).1 3 rfl,
   (commit_history_head_classification _ _).2.2 _ [] rfl rfl⟩

/-- C9: the tag index is keyed by peeled target-commit identity, and when two
accepted tag references resolve to the same target the later-built entry
wins. -/
theorem tag_index_last_write_wins (refs : List Reference) (r : Reference) :
    tagFind (tags_by_commit (refs ++ [r])) r.peeled = Option.some r ∧
    (∀ k v, tagFind (tags_by_commit refs) k = Option.some v → v.peeled = k ∧ v ∈ refs) := by
  constructor
  · unfold tags_by_commit
    rw [List.foldl_append]
    exact tagFind_tagInsert_self _ _ _
  · intro k v hfind
    unfold tagFind at hfind
    obtain ⟨p, hf, hp2⟩ := Option.map_eq_some'.mp hfind
    have hkey : p.1 = k := by
      have hb := List.find?_some hf
      simpa using hb
    have hmem := List.mem_of_find?_eq_some hf
    rcases tags_by_commit_aux_mem refs [] p hmem with h | h
    · exact absurd h (by simp)
    · subst hp2
      exact ⟨by rw [← h.1, hkey], h.2⟩

/-- C9 witness: two tags on the same target commit; the later one wins, and
found entries are keyed by their peeled target. -/
theorem tag_index_last_write_wins_witness :
    (tagFind (tags_by_commit [{ name := ("refs/tags/a-v1"), peeled := 7 },
        { name := ("refs/tags/a-v2"), peeled := 7 }]) 7 =
      Option.some { name := ("refs/tags/a-v2"), peeled := 7 }) ∧
    (tagFind (tags_by_commit [{ name := ("refs/tags/a-v1"), peeled := 7 }]) 7 =
        Option.some { name := ("refs/tags/a-v1"), peeled := 7 } →
      Reference.peeled { name := ("refs/tags/a-v1"), peeled := 7 } = 7 ∧
      ({ name := ("refs/tags/a-v1"), peeled := 7 } : Reference) ∈
        [{ name := ("refs/tags/a-v1"), peeled := 7 }]) :=
  ⟨(tag_index_last_write_wins [{ name := ("refs/tags/a-v1"), peeled := 7 }]
      { name := ("refs/tags/a-v2"), peeled := 7 }).1,
   (tag_index_last_write_wins [{ name := ("refs/tags/a-v1"), peeled := 7 }]
      { name := ("refs/tags/a-v2"), peeled := 7 }).2 7 _⟩

/-- A `Filter::Slow` evaluation of a one-element component list never fails
and computes exactly the `Filter::Fast` decision, restoring the cache. -/
theorem slowStep_single (objects : Nat → Option Tree) (comp : String) (item : Item)
    (next? : Option Item) (cache : Nat) :
    slowStep objects [comp] item next? cache = Except.ok (fastRel comp item next?, cache) := by
  cases next? <;> simp [slowStep, lookup_path, fastRel]

/-- C8: for a package one directory below the root, the `SingleComponent`
(Fast) pass and the `MultiComponent` (Slow) pass with the one-element
component list produce identical results on every history, tag map, starting
segment and cache size. -/
theorem single_vs_multi_component (objects : Nat → Option Tree) (comp : String) :
    ∀ (items : List Item) (tags : TagMap) (seg : Segment) (cache : Nat),
      segLoop (Filter.Slow [comp]) objects items tags seg cache =
        segLoop (Filter.Fast comp) objects items tags seg cache := by
  intro items
  induction items with
  | nil => intro tags seg cache; rfl
  | cons item rest ih =>
    intro tags seg cache
    simp only [segLoop]
    cases htag : tagFind tags item.id with
    | some r => simp [ih]
    | none => simp [slowStep_single, ih]

/-- C3 amended: the object-data cache size is restored only on the successful
completion paths — when `commit_history` returns a history, and when a pass
of `ref_segments` completes without a failing lookup. -/
theorem cache_restored_on_success (decode : List Nat → Option String) (repo : Repo) :
    (∀ h, (commit_history decode repo).2 = Except.ok (Option.some h) →
      (commit_history decode repo).1.cacheSize = repo.cacheSize) ∧
    (∀ (flt : Filter) (objects : Nat → Option Tree) (items : List Item) (tags : TagMap)
        (seg : Segment) (cache : Nat) (segs : List Segment) (t : TagMap) (c : Nat),
      segLoop flt objects items tags seg cache = Except.ok (segs, t, c) → c = cache) := by
  constructor
  · intro h hok
    unfold commit_history at hok ⊢
    cases hh : repo.head with
    | Detached idv => simp [hh] at hok
    | Unborn => simp [hh] at hok
    | Symbolic r =>
      simp only [hh] at hok ⊢
      cases hb : buildItems decode repo.objects repo.ancestors with
      | error e => simp [hb] at hok
      | ok items => simp [hb]
  · intro flt objects items tags seg cache segs t c h
    exact segLoop_cache_restored flt objects items tags seg cache segs t c h

/-- C3 amended witness: a successful `commit_history` run and a successful
pass both end with the cache size they started with. -/
theorem cache_restored_on_success_witness :
    ((commit_history (fun _ => Option.some ("m"))
        { head := HeadKind.Symbolic { name := ("refs/heads/main"), peeled := 9 },
          ancestors := [], objects := fun _ => Option.none, cacheSize := 5 }).2 =
      Except.ok (Option.some
        { head := { name := ("refs/heads/main"), peeled := 9 }, items := [] }) →
      (commit_history (fun _ => Option.some ("m"))
        { head := HeadKind.Symbolic { name := ("refs/heads/main"), peeled := 9 },
          ancestors := [], objects := fun _ => Option.none, cacheSize := 5 }).1.cacheSize = 5) ∧
    (segLoop Filter.None (fun _ => Option.none) [] []
        { _head := { name := ("HEAD"), peeled := 0 }, history := [] } 5 =
      Except.ok ([{ _head := { name := ("HEAD"), peeled := 0 }, history := [] }], [], 5) → (5 : Nat) = 5) :=
  ⟨fun hok => (cache_restored_on_success (fun _ => Option.some ("m")) _).1 _ hok,
   fun hok => (cache_restored_on_success (fun _ => Option.none)
      { head := HeadKind.Unborn, ancestors := [], objects := fun _ => Option.none,
        cacheSize := 0 }).2 Filter.None _ [] [] _ 5 _ [] 5 hok⟩

/-- C3 counterexample: on early exit paths the enlarged cache size persists.
A detached head aborts with the cache left at `64 * 1024` instead of the
prior value `5`, and a failing `Slow` lookup propagates its error with the
cache left at `1024 * 1024`. -/
theorem cache_not_restored_on_early_exit :
    ((commit_history (fun _ => Option.none)
        { head := HeadKind.Detached 0, ancestors := [], objects := fun _ => Option.none,
          cacheSize := 5 }).1.cacheSize = 65536) ∧
    ((5 : Nat) ≠ 65536) ∧
    (segLoop (Filter.Slow [("a"), ("b")]) (fun _ => Option.none)
        [{ id := 1, _message := ("m"), tree_data := [{ filename := ("a"), oid := 7 }] }]
        [] { _head := { name := ("HEAD"), peeled := 0 }, history := [] } 5 =
      Except.error (("object not found"), 1048576)) ∧
    ((5 : Nat) ≠ 1048576) := by
  refine ⟨rfl, by decide, ?_, by decide⟩
  rfl

/-- The first segment emitted by the pass carries the boundary of the
accumulating segment it started from, and the relevance list it started with
survives (as a sublist) into that emitted segment. -/
theorem segLoop_first_seg (flt : Filter) (objects : Nat → Option Tree) :
    ∀ (items : List Item) (tags : TagMap) (seg : Segment) (cache : Nat)
      (segs : List Segment) (t : TagMap) (c : Nat),
      segLoop flt objects items tags seg cache = Except.ok (segs, t, c) →
      ∃ s tl, segs = s :: tl ∧ s._head = seg._head ∧ seg.history.Sublist s.history := by
  intro items
  induction items with
  | nil =>
    intro tags seg cache segs t c h
    simp only [segLoop, Except.ok.injEq, Prod.mk.injEq] at h
    exact ⟨seg, [], h.1.symm, rfl, List.Sublist.refl _⟩
  | cons item rest ih =>
    intro tags seg cache segs t c h
    simp only [segLoop] at h
    split at h
    · split at h
      · simp at h
      · rename_i segs' t' c' heq2
        simp only [Except.ok.injEq, Prod.mk.injEq] at h
        exact ⟨seg, segs', h.1.symm, rfl, List.Sublist.refl _⟩
    · split at h
      · obtain ⟨s, tl, hse, hh, hsub⟩ := ih _ _ _ _ _ _ h
        exact ⟨s, tl, hse, hh, (List.sublist_append_left _ _).trans hsub⟩
      · split at h
        · obtain ⟨s, tl, hse, hh, hsub⟩ := ih _ _ _ _ _ _ h
          exact ⟨s, tl, hse, hh, (List.sublist_append_left _ _).trans hsub⟩
        · exact ih _ _ _ _ _ _ h
      · split at h
        · simp at h
        · split at h
          · obtain ⟨s, tl, hse, hh, hsub⟩ := ih _ _ _ _ _ _ h
            exact ⟨s, tl, hse, hh, (List.sublist_append_left _ _).trans hsub⟩
          · exact ih _ _ _ _ _ _ h

/-- C1: under the `SingleComponent` (Fast) filter a non-tag commit is
appended to the accumulating segment exactly when the named entry exists in
its root tree and is either absent from the next-older tree (or there is no
next) or carries a different content hash; with no next-older item the commit
is relevant exactly when its entry exists at all. -/
theorem fast_filter_relevance (objects : Nat → Option Tree) (cache : Nat) (comp : String)
    (item : Item) (rest : List Item) (tags : TagMap) (seg : Segment)
    (hnotag : tagFind tags item.id = Option.none) :
    (segLoop (Filter.Fast comp) objects (item :: rest) tags seg cache =
      segLoop (Filter.Fast comp) objects rest tags
        (if fastRel comp item rest.head? then { seg with history := seg.history ++ [item] }
         else seg) cache) ∧
    (fastRel comp item rest.head? = true ↔
      (∃ cur, findEntry item.tree_data comp = Option.some cur ∧
        ((rest.head?.bind (fun p => findEntry p.tree_data comp)) = Option.none ∨
         (∃ par, (rest.head?.bind (fun p => findEntry p.tree_data comp)) = Option.some par ∧
           cur.oid ≠ par.oid)))) ∧
    (rest.head? = Option.none →
      (fastRel comp item rest.head? = true ↔ (findEntry item.tree_data comp).isSome = true)) := by
  refine ⟨?_, ?_, ?_⟩
  · simp only [segLoop, hnotag]
  · unfold fastRel
    cases ha : findEntry item.tree_data comp with
    | none =>
      cases hb : rest.head?.bind (fun p => findEntry p.tree_data comp) with
      | none => simp [relevanceDecision, ha, hb]
      | some par => simp [relevanceDecision, ha, hb]
    | some cur =>
      cases hb : rest.head?.bind (fun p => findEntry p.tree_data comp) with
      | none => simp [relevanceDecision, ha, hb]
      | some par => simp [relevanceDecision, ha, hb]
  · intro hnone
    unfold fastRel
    rw [hnone]
    cases ha : findEntry item.tree_data comp with
    | none => simp [relevanceDecision, ha]
    | some cur => simp [relevanceDecision, ha]

/-- C1 witness: a commit whose tree holds the entry while there is no
next-older item is appended; the characterizations hold at that input. -/
theorem fast_filter_relevance_witness :
    (tagFind [] (1 : Nat) = Option.none) ∧
    ((segLoop (Filter.Fast ("a")) (fun _ => Option.none)
        [{ id := 1, _message := ("m"), tree_data := [{ filename := ("a"), oid := 2 }] }] []
        { _head := { name := ("HEAD"), peeled := 0 }, history := [] } 0 =
      segLoop (Filter.Fast ("a")) (fun _ => Option.none) [] []
        (if fastRel ("a")
            { id := 1, _message := ("m"), tree_data := [{ filename := ("a"), oid := 2 }] }
            (List.head? ([] : List Item)) then
          { _head := { name := ("HEAD"), peeled := 0 },
            history := [] ++
              [{ id := 1, _message := ("m"), tree_data := [{ filename := ("a"), oid := 2 }] }] }
         else { _head := { name := ("HEAD"), peeled := 0 }, history := [] }) 0) ∧
      (fastRel ("a")
          { id := 1, _message := ("m"), tree_data := [{ filename := ("a"), oid := 2 }] }
          (List.head? ([] : List Item)) = true ↔
        (∃ cur, findEntry [{ filename := ("a"), oid := 2 }] ("a") = Option.some cur ∧
          (((List.head? ([] : List Item)).bind (fun p => findEntry p.tree_data ("a"))) =
              Option.none ∨
           (∃ par, ((List.head? ([] : List Item)).bind (fun p => findEntry p.tree_data ("a"))) =
              Option.some par ∧ cur.oid ≠ par.oid)))) ∧
      (List.head? ([] : List Item) = Option.none →
        (fastRel ("a")
            { id := 1, _message := ("m"), tree_data := [{ filename := ("a"), oid := 2 }] }
            (List.head? ([] : List Item)) = true ↔
          (findEntry [{ filename := ("a"), oid := 2 }] ("a")).isSome = true))) :=
  ⟨rfl, fast_filter_relevance (fun _ => Option.none) 0 ("a")
    { id := 1, _message := ("m"), tree_data := [{ filename := ("a"), oid := 2 }] } [] []
    { _head := { name := ("HEAD"), peeled := 0 }, history := [] } rfl⟩

/-- C2: when a commit's identity is a key of the tag map, the entry is
removed, the accumulating segment is closed, and a new segment opens whose
boundary is the removed tag reference and whose relevance list starts with
the commit unconditionally; on every successful run that commit ends up in
the relevance list of a segment bounded by that tag reference. -/
theorem tag_target_opens_segment (flt : Filter) (objects : Nat → Option Tree)
    (item : Item) (rest : List Item) (tags : TagMap) (seg : Segment) (cache : Nat)
    (next_ref : Reference) (htag : tagFind tags item.id = Option.some next_ref) :
    (segLoop flt objects (item :: rest) tags seg cache =
      match segLoop flt objects rest (tagErase tags item.id)
          { _head := next_ref, history := [item] } cache with
      | Except.error e => Except.error e
      | Except.ok (segs, t, c) => Except.ok (seg :: segs, t, c)) ∧
    (∀ segs t c, segLoop flt objects (item :: rest) tags seg cache = Except.ok (segs, t, c) →
      ∃ s, s ∈ segs ∧ s._head = next_ref ∧ item ∈ s.history) := by
  have hstep : segLoop flt objects (item :: rest) tags seg cache =
      match segLoop flt objects rest (tagErase tags item.id)
          { _head := next_ref, history := [item] } cache with
      | Except.error e => Except.error e
      | Except.ok (segs, t, c) => Except.ok (seg :: segs, t, c) := by
    simp only [segLoop, htag]
  refine ⟨hstep, ?_⟩
  intro segs t c h
  rw [hstep] at h
  cases hin : segLoop flt objects rest (tagErase tags item.id)
      { _head := next_ref, history := [item] } cache with
  | error e => rw [hin] at h; simp at h
  | ok v =>
    rw [hin] at h
    obtain ⟨segs', t', c'⟩ := v
    simp only [Except.ok.injEq, Prod.mk.injEq] at h
    obtain ⟨s, tl, hse, hh, hsub⟩ := segLoop_first_seg flt objects _ _ _ _ _ _ _ hin
    refine ⟨s, ?_, hh, ?_⟩
    · rw [← h.1, hse]
      exact List.mem_cons_of_mem _ (List.mem_cons_self _ _)
    · exact hsub.subset (by simp)

/-- C2 witness: a tagged commit opens a tag-bounded segment that contains it
even though it changes nothing (its tree equals the next-older tree). -/
theorem tag_target_opens_segment_witness :
    (tagFind [(1, { name := ("refs/tags/v1.0.0"), peeled := 1 })] (1 : Nat) =
      Option.some { name := ("refs/tags/v1.0.0"), peeled := 1 }) ∧
    (∀ segs t c,
      segLoop (Filter.Fast ("a")) (fun _ => Option.none)
        [{ id := 1, _message := ("m1"), tree_data := [{ filename := ("a"), oid := 2 }] },
         { id := 2, _message := ("m2"), tree_data := [{ filename := ("a"), oid := 2 }] }]
        [(1, { name := ("refs/tags/v1.0.0"), peeled := 1 })]
        { _head := { name := ("HEAD"), peeled := 0 }, history := [] } 0 =
        Except.ok (segs, t, c) →
      ∃ s, s ∈ segs ∧ s._head = { name := ("refs/tags/v1.0.0"), peeled := 1 } ∧
        ({ id := 1, _message := ("m1"), tree_data := [{ filename := ("a"), oid := 2 }] } : Item)
          ∈ s.history) :=
  ⟨rfl,
   (tag_target_opens_segment (Filter.Fast ("a")) (fun _ => Option.none)
      { id := 1, _message := ("m1"), tree_data := [{ filename := ("a"), oid := 2 }] }
      [{ id := 2, _message := ("m2"), tree_data := [{ filename := ("a"), oid := 2 }] }]
      [(1, { name := ("refs/tags/v1.0.0"), peeled := 1 })]
      { _head := { name := ("HEAD"), peeled := 0 }, history := [] } 0
      { name := ("refs/tags/v1.0.0"), peeled := 1 } rfl).2⟩

/-- The boundaries of the emitted segments are the starting segment's
boundary followed by the tag references consumed from the map, in traversal
order. -/
theorem segLoop_boundaries (flt : Filter) (objects : Nat → Option Tree) :
    ∀ (items : List Item) (tags : TagMap) (seg : Segment) (cache : Nat)
      (segs : List Segment) (t : TagMap) (c : Nat),
      segLoop flt objects items tags seg cache = Except.ok (segs, t, c) →
      segs.map Segment._head = seg._head :: tagBoundaries tags items := by
  intro items
  induction items with
  | nil =>
    intro tags seg cache segs t c h
    simp only [segLoop, Except.ok.injEq, Prod.mk.injEq] at h
    rw [← h.1]
    rfl
  | cons item rest ih =>
    intro tags seg cache segs t c h
    simp only [segLoop] at h
    split at h
    · rename_i next_ref heq
      split at h
      · simp at h
      · rename_i segs' t' c' heq2
        simp only [Except.ok.injEq, Prod.mk.injEq] at h
        rw [← h.1]
        simp only [List.map_cons]
        rw [ih _ _ _ _ _ _ heq2]
        simp [tagBoundaries, heq]
    · rename_i heq
      have htb : tagBoundaries tags (item :: rest) = tagBoundaries tags rest := by
        simp [tagBoundaries, heq]
      rw [htb]
      split at h
      · have hx := ih _ _ _ _ _ _ h
        exact hx
      · split at h
        · have hx := ih _ _ _ _ _ _ h
          exact hx
        · exact ih _ _ _ _ _ _ h
      · split at h
        · simp at h
        · split at h
          · have hx := ih _ _ _ _ _ _ h
            exact hx
          · exact ih _ _ _ _ _ _ h

/-- When no traversed commit is a key of the tag map, nothing is consumed. -/
theorem tagBoundaries_nil_of_no_tags (tags : TagMap) :
    ∀ items : List Item, (∀ it ∈ items, tagFind tags it.id = Option.none) →
      tagBoundaries tags items = [] := by
  intro items
  induction items with
  | nil => intro; rfl
  | cons item rest ih =>
    intro hno
    have h1 := hno item (List.mem_cons_self _ _)
    have h2 : tagBoundaries tags (item :: rest) = tagBoundaries tags rest := by
      simp [tagBoundaries, h1]
    rw [h2]
    exact ih (fun it hit => hno it (List.mem_cons_of_mem _ hit))

/-- C7: in every segmentation result the first segment's boundary is the
repository head (never a tag), and the boundaries of all subsequent segments
are the consumed tag references in the order their target commits occur in
the linear history — the order the single pass produces, newest-bounded
first. -/
theorem segment_boundary_order (objects : Nat → Option Tree) (tagRefs : List Reference)
    (flt : Filter) (history : History) (cache : Nat) (segs : List Segment) (t : TagMap)
    (c : Nat) (h : ref_segments objects tagRefs flt history cache = Except.ok (segs, t, c)) :
    segs.map Segment._head =
      history.head :: tagBoundaries (tags_by_commit tagRefs) history.items :=
  segLoop_boundaries flt objects history.items (tags_by_commit tagRefs)
    { _head := history.head, history := [] } cache segs t c h

/-- C7 witness: a three-commit history with one tag on the middle commit
yields the head boundary followed by that tag. -/
theorem segment_boundary_order_witness :
    (ref_segments (fun _ => Option.none) [{ name := ("refs/tags/v1.0.0"), peeled := 2 }]
        Filter.None
        { head := { name := ("HEAD"), peeled := 0 },
          items :=
            [{ id := 1, _message := ("m1"), tree_data := [] },
             { id := 2, _message := ("m2"), tree_data := [] },
             { id := 3, _message := ("m3"), tree_data := [] }] } 0 =
      Except.ok
        ([{ _head := { name := ("HEAD"), peeled := 0 },
            history := [{ id := 1, _message := ("m1"), tree_data := [] }] },
          { _head := { name := ("refs/tags/v1.0.0"), peeled := 2 },
            history :=
              [{ id := 2, _message := ("m2"), tree_data := [] },
               { id := 3, _message := ("m3"), tree_data := [] }] }], [], 0)) ∧
    ([{ _head := { name := ("HEAD"), peeled := 0 },
        history := [{ id := 1, _message := ("m1"), tree_data := [] }] },
      { _head := { name := ("refs/tags/v1.0.0"), peeled := 2 },
        history :=
          [{ id := 2, _message := ("m2"), tree_data := [] },
           { id := 3, _message := ("m3"), tree_data := [] }] }].map Segment._head =
      ({ name := ("HEAD"), peeled := 0 } : Reference) ::
        tagBoundaries (tags_by_commit [{ name := ("refs/tags/v1.0.0"), peeled := 2 }])
          [{ id := 1, _message := ("m1"), tree_data := [] },
           { id := 2, _message := ("m2"), tree_data := [] },
           { id := 3, _message := ("m3"), tree_data := [] }]) :=
  ⟨rfl,
   segment_boundary_order (fun _ => Option.none)
    [{ name := ("refs/tags/v1.0.0"), peeled := 2 }] Filter.None
    { head := { name := ("HEAD"), peeled := 0 },
      items :=
        [{ id := 1, _message := ("m1"), tree_data := [] },
         { id := 2, _message := ("m2"), tree_data := [] },
         { id := 3, _message := ("m3"), tree_data := [] }] } 0 _ _ _ rfl⟩

/-- C10: the pass always returns at least one segment — exactly the consumed
tag entries plus one: an empty history yields the single head-bounded
segment, a history with no tag targets yields exactly one head-bounded
segment, and when the newest commit itself is a tag target the head-bounded
first segment is emitted with an empty relevance list. -/
theorem segment_count_properties (objects : Nat → Option Tree) (tagRefs : List Reference)
    (flt : Filter) (history : History) (cache : Nat) :
    (∀ segs t c, ref_segments objects tagRefs flt history cache = Except.ok (segs, t, c) →
      segs.length = (tagBoundaries (tags_by_commit tagRefs) history.items).length + 1 ∧
      1 ≤ segs.length) ∧
    (history.items = [] →
      ref_segments objects tagRefs flt history cache =
        Except.ok ([{ _head := history.head, history := [] }], tags_by_commit tagRefs, cache)) ∧
    ((∀ it ∈ history.items, tagFind (tags_by_commit tagRefs) it.id = Option.none) →
      ∀ segs t c, ref_segments objects tagRefs flt history cache = Except.ok (segs, t, c) →
      segs.map Segment._head = [history.head]) ∧
    (∀ item rest r, history.items = item :: rest →
      tagFind (tags_by_commit tagRefs) item.id = Option.some r →
      ∀ segs t c, ref_segments objects tagRefs flt history cache = Except.ok (segs, t, c) →
      ∃ tl, segs = { _head := history.head, history := [] } :: tl) := by
  refine ⟨?_, ?_, ?_, ?_⟩
  · intro segs t c h
    have hb := segLoop_boundaries flt objects history.items (tags_by_commit tagRefs)
      { _head := history.head, history := [] } cache segs t c h
    have hl := congrArg List.length hb
    simp only [List.length_map, List.length_cons] at hl
    constructor
    · exact hl
    · omega
  · intro hempty
    unfold ref_segments
    rw [hempty]
    rfl
  · intro hno segs t c h
    have hb := segLoop_boundaries flt objects history.items (tags_by_commit tagRefs)
      { _head := history.head, history := [] } cache segs t c h
    rw [tagBoundaries_nil_of_no_tags _ _ hno] at hb
    exact hb
  · intro item rest r hitems htag segs t c h
    unfold ref_segments at h
    rw [hitems] at h
    simp only [segLoop] at h
    split at h
    · rename_i next_ref heq
      split at h
      · simp at h
      · rename_i segs' t' c' heq2
        simp only [Except.ok.injEq, Prod.mk.injEq] at h
        exact ⟨segs', h.1.symm⟩
    · rename_i heq
      rw [htag] at heq
      simp at heq

/-- C10 witness: the empty history yields the one head-bounded segment, and
when the newest commit is tagged the first emitted segment is the
head-bounded one with an empty relevance list. -/
theorem segment_count_properties_witness :
    (ref_segments (fun _ => Option.none) ([] : List Reference) Filter.None
        { head := { name := ("HEAD"), peeled := 0 }, items := [] } 3 =
      Except.ok ([{ _head := { name := ("HEAD"), peeled := 0 }, history := [] }],
        tags_by_commit ([] : List Reference), 3)) ∧
    (∃ tl,
      [{ _head := { name := ("HEAD"), peeled := 0 }, history := [] },
       { _head := { name := ("refs/tags/v1.0.0"), peeled := 1 },
         history := [{ id := 1, _message := ("m1"), tree_data := [] }] }] =
        ({ _head := { name := ("HEAD"), peeled := 0 }, history := [] } : Segment) :: tl) :=
  ⟨(segment_count_properties (fun _ => Option.none) [] Filter.None
      { head := { name := ("HEAD"), peeled := 0 }, items := [] } 3).2.1 rfl,
   (segment_count_properties (fun _ => Option.none)
      [{ name := ("refs/tags/v1.0.0"), peeled := 1 }] Filter.None
      { head := { name := ("HEAD"), peeled := 0 },
        items := [{ id := 1, _message := ("m1"), tree_data := [] }] } 3).2.2.2
      { id := 1, _message := ("m1"), tree_data := [] } []
      { name := ("refs/tags/v1.0.0"), peeled := 1 } rfl rfl
      [{ _head := { name := ("HEAD"), peeled := 0 }, history := [] },
       { _head := { name := ("refs/tags/v1.0.0"), peeled := 1 },
         history := [{ id := 1, _message := ("m1"), tree_data := [] }] }] [] 3 rfl⟩

/-- Each input commit contributes at most one occurrence, in input order: the
concatenation of all emitted relevance lists is the starting list followed by
a sublist of the traversed items. -/
theorem segLoop_flatten_sublist (flt : Filter) (objects : Nat → Option Tree) :
    ∀ (items : List Item) (tags : TagMap) (seg : Segment) (cache : Nat)
      (segs : List Segment) (t : TagMap) (c : Nat),
      segLoop flt objects items tags seg cache = Except.ok (segs, t, c) →
      ∃ s, (segs.map Segment.history).flatten = seg.history ++ s ∧ s.Sublist items := by
  intro items
  induction items with
  | nil =>
    intro tags seg cache segs t c h
    simp only [segLoop, Except.ok.injEq, Prod.mk.injEq] at h
    refine ⟨[], ?_, List.nil_sublist _⟩
    rw [← h.1]
    simp
  | cons item rest ih =>
    intro tags seg cache segs t c h
    simp only [segLoop] at h
    split at h
    · rename_i next_ref heq
      split at h
      · simp at h
      · rename_i segs' t' c' heq2
        simp only [Except.ok.injEq, Prod.mk.injEq] at h
        obtain ⟨s, hflat, hsub⟩ := ih _ _ _ _ _ _ heq2
        refine ⟨item :: s, ?_, List.Sublist.cons₂ _ hsub⟩
        rw [← h.1]
        simp only [List.map_cons, List.flatten_cons]
        rw [hflat]
        rfl
    · split at h
      · obtain ⟨s, hflat, hsub⟩ := ih _ _ _ _ _ _ h
        refine ⟨item :: s, ?_, List.Sublist.cons₂ _ hsub⟩
        rw [hflat]
        simp
      · split at h
        · obtain ⟨s, hflat, hsub⟩ := ih _ _ _ _ _ _ h
          refine ⟨item :: s, ?_, List.Sublist.cons₂ _ hsub⟩
          rw [hflat]
          simp
        · obtain ⟨s, hflat, hsub⟩ := ih _ _ _ _ _ _ h
          exact ⟨s, hflat, hsub.cons _⟩
      · split at h
        · simp at h
        · split at h
          · obtain ⟨s, hflat, hsub⟩ := ih _ _ _ _ _ _ h
            refine ⟨item :: s, ?_, List.Sublist.cons₂ _ hsub⟩
            rw [hflat]
            simp
          · obtain ⟨s, hflat, hsub⟩ := ih _ _ _ _ _ _ h
            exact ⟨s, hflat, hsub.cons _⟩

/-- Under `Filter::None` the pass never fails and every traversed commit is
appended to the segment accumulating at the time it is reached. -/
theorem segLoop_none_total (objects : Nat → Option Tree) :
    ∀ (items : List Item) (tags : TagMap) (seg : Segment) (cache : Nat),
      ∃ segs t, segLoop Filter.None objects items tags seg cache = Except.ok (segs, t, cache) ∧
        (segs.map Segment.history).flatten = seg.history ++ items := by
  intro items
  induction items with
  | nil =>
    intro tags seg cache
    exact ⟨[seg], tags, rfl, by simp⟩
  | cons item rest ih =>
    intro tags seg cache
    cases htag : tagFind tags item.id with
    | some r =>
      obtain ⟨segs', t, hrun, hflat⟩ :=
        ih (tagErase tags item.id) { _head := r, history := [item] } cache
      refine ⟨seg :: segs', t, ?_, ?_⟩
      · simp only [segLoop, htag, hrun]
      · simp only [List.map_cons, List.flatten_cons]
        rw [hflat]
        rfl
    | none =>
      obtain ⟨segs', t, hrun, hflat⟩ :=
        ih tags { seg with history := seg.history ++ [item] } cache
      refine ⟨segs', t, ?_, ?_⟩
      · simp only [segLoop, htag, hrun]
      · rw [hflat]
        simp

/-- C4: in one segmentation run over a history with distinct commit
identities, every segment's relevance list has distinct identities and no
identity occurs in two different segments' lists; under `PathFilter::None`
the pass succeeds and the concatenation of all relevance lists is exactly
the full commit sequence. -/
theorem segment_partition (objects : Nat → Option Tree) (cache : Nat) :
    (∀ (flt : Filter) (items : List Item) (tags : TagMap) (hd : Reference)
        (segs : List Segment) (t : TagMap) (c : Nat),
      segLoop flt objects items tags { _head := hd, history := [] } cache =
          Except.ok (segs, t, c) →
      (items.map Item.id).Nodup →
      ((∀ s ∈ segs, (s.history.map Item.id).Nodup) ∧
        segs.Pairwise (fun s1 s2 => ∀ x ∈ s1.history, ∀ y ∈ s2.history, x.id ≠ y.id))) ∧
    (∀ (items : List Item) (tags : TagMap) (hd : Reference),
      ∃ segs t,
        segLoop Filter.None objects items tags { _head := hd, history := [] } cache =
          Except.ok (segs, t, cache) ∧
        (segs.map Segment.history).flatten = items) := by
  constructor
  · intro flt items tags hd segs t c h hnodup
    obtain ⟨s, hflat, hsub⟩ := segLoop_flatten_sublist flt objects _ _ _ _ _ _ _ h
    have hids : ((segs.map Segment.history).flatten.map Item.id).Nodup := by
      rw [hflat]
      simp only [List.nil_append]
      exact List.Nodup.sublist (hsub.map Item.id) hnodup
    have hmap : ((segs.map Segment.history).map (List.map Item.id)).flatten.Nodup := by
      rw [← List.map_flatten]
      exact hids
    rw [List.map_map] at hmap
    obtain ⟨h1, h2⟩ := List.nodup_flatten.mp hmap
    constructor
    · intro sg hsg
      exact h1 _ (List.mem_map.mpr ⟨sg, hsg, rfl⟩)
    · refine List.Pairwise.imp ?_ (List.pairwise_map.mp h2)
      intro s1 s2 hdisj
      intro x hx y hy hxy
      exact hdisj (List.mem_map.mpr ⟨x, hx, rfl⟩) (List.mem_map.mpr ⟨y, hy, hxy.symm⟩)
  · intro items tags hd
    obtain ⟨segs, t, hrun, hflat⟩ :=
      segLoop_none_total objects items tags { _head := hd, history := [] } cache
    exact ⟨segs, t, hrun, hflat.trans (by simp)⟩

/-- C4 witness: a one-commit history under `Filter::None`: the run succeeds,
identities are distinct within and across segments, and the concatenated
relevance lists equal the full history. -/
theorem segment_partition_witness :
    ((List.map Item.id [{ id := 1, _message := ("m"), tree_data := ([] : Tree) }]).Nodup) ∧
    ((∀ s ∈
        [{ _head := { name := ("HEAD"), peeled := 0 },
           history := [{ id := 1, _message := ("m"), tree_data := [] }] }],
        (List.map Item.id (Segment.history s)).Nodup) ∧
      List.Pairwise (fun (s1 s2 : Segment) => ∀ x ∈ s1.history, ∀ y ∈ s2.history, x.id ≠ y.id)
        [{ _head := { name := ("HEAD"), peeled := 0 },
           history := [{ id := 1, _message := ("m"), tree_data := [] }] }]) ∧
    (∃ segs t, segLoop Filter.None (fun _ => Option.none)
        [{ id := 1, _message := ("m"), tree_data := [] }] []
        { _head := { name := ("HEAD"), peeled := 0 }, history := [] } 0 =
        Except.ok (segs, t, 0) ∧
      (segs.map Segment.history).flatten =
        [{ id := 1, _message := ("m"), tree_data := [] }]) :=
  ⟨by simp,
   (segment_partition (fun _ => Option.none) 0).1 Filter.None
      [{ id := 1, _message := ("m"), tree_data := [] }] []
      { name := ("HEAD"), peeled := 0 }
      [{ _head := { name := ("HEAD"), peeled := 0 },
         history := [{ id := 1, _message := ("m"), tree_data := [] }] }] [] 0 rfl (by simp),
   (segment_partition (fun _ => Option.none) 0).2
      [{ id := 1, _message := ("m"), tree_data := [] }] []
      { name := ("HEAD"), peeled := 0 }⟩

/-- Over an error-free ancestry stream whose retained commits all have their
tree objects available, the ancestry loop keeps exactly the commits whose
message bytes decode, with identity, decoded message and root-tree data. -/
theorem buildItems_all_ok (decode : List Nat → Option String) (objects : Nat → Option Tree) :
    ∀ cs : List Commit,
      (∀ cmt ∈ cs, (decode cmt.messageBytes).isSome = true →
        (objects cmt.treeId).isSome = true) →
      buildItems decode objects (cs.map Except.ok) =
        Except.ok (cs.filterMap (fun cmt =>
          (decode cmt.messageBytes).bind (fun m =>
            (objects cmt.treeId).map
              (fun data => { id := cmt.id, _message := m, tree_data := data })))) := by
  intro cs
  induction cs with
  | nil => intro _; rfl
  | cons c cs' ih =>
    intro hobj
    have hi := ih (fun cmt hm hd => hobj cmt (List.mem_cons_of_mem _ hm) hd)
    cases hd : decode c.messageBytes with
    | none =>
      simp only [List.map_cons, buildItems, hd, List.filterMap_cons, Option.none_bind]
      exact hi
    | some m =>
      have hs : (objects c.treeId).isSome = true :=
        hobj c (List.mem_cons_self _ _) (by rw [hd]; rfl)
      cases ho : objects c.treeId with
      | none => rw [ho] at hs; simp at hs
      | some data =>
        simp [buildItems, hd, ho, hi]

/-- C6: an ancestor whose message bytes fail to decode is omitted entirely
from the resulting history (so it can never appear in any segment), while
every decodable commit is retained with its identity, message and root-tree
data; `commit_history` returns exactly that filtered history. -/
theorem undecodable_commits_dropped (decode : List Nat → Option String)
    (objects : Nat → Option Tree) (repo : Repo) (cs : List Commit)
    (hobj : ∀ cmt ∈ cs, (decode cmt.messageBytes).isSome = true →
      (objects cmt.treeId).isSome = true) :
    (buildItems decode objects (cs.map Except.ok) =
      Except.ok (cs.filterMap (fun cmt =>
        (decode cmt.messageBytes).bind (fun m =>
          (objects cmt.treeId).map
            (fun data => { id := cmt.id, _message := m, tree_data := data }))))) ∧
    (∀ r, repo.head = HeadKind.Symbolic r → repo.ancestors = cs.map Except.ok →
      repo.objects = objects →
      (commit_history decode repo).2 = Except.ok (Option.some
        { head := r,
          items := cs.filterMap (fun cmt =>
            (decode cmt.messageBytes).bind (fun m =>
              (objects cmt.treeId).map
                (fun data => { id := cmt.id, _message := m, tree_data := data }))) })) := by
  constructor
  · exact buildItems_all_ok decode objects cs hobj
  · intro r hh hanc hobjeq
    have hb : buildItems decode repo.objects repo.ancestors =
        Except.ok (cs.filterMap (fun cmt =>
          (decode cmt.messageBytes).bind (fun m =>
            (objects cmt.treeId).map
              (fun data => { id := cmt.id, _message := m, tree_data := data })))) := by
      rw [hanc, hobjeq]
      exact buildItems_all_ok decode objects cs hobj
    simp [commit_history, hh, hb]

/-- C6 witness: of two ancestors, the one with undecodable message bytes is
dropped and the other is retained with its identity, message, and tree. -/
theorem undecodable_commits_dropped_witness :
    (∀ cmt ∈ [({ id := 1, messageBytes := [], treeId := 5 } : Commit),
        { id := 2, messageBytes := [7], treeId := 5 }],
      ((fun bs => if bs = ([] : List Nat) then Option.none else Option.some ("ok"))
          cmt.messageBytes).isSome = true →
      ((fun _ => Option.some ([] : Tree)) cmt.treeId).isSome = true) ∧
    ((commit_history (fun bs => if bs = ([] : List Nat) then Option.none else Option.some ("ok"))
        { head := HeadKind.Symbolic { name := ("refs/heads/main"), peeled := 9 },
          ancestors :=
            [Except.ok { id := 1, messageBytes := [], treeId := 5 },
             Except.ok { id := 2, messageBytes := [7], treeId := 5 }],
          objects := fun _ => Option.some ([] : Tree), cacheSize := 3 }).2 =
      Except.ok (Option.some
        { head := { name := ("refs/heads/main"), peeled := 9 },
          items :=
            [({ id := 1, messageBytes := [], treeId := 5 } : Commit),
             { id := 2, messageBytes := [7], treeId := 5 }].filterMap (fun cmt =>
              ((fun bs => if bs = ([] : List Nat) then Option.none else Option.some ("ok"))
                  cmt.messageBytes).bind (fun m =>
                ((fun _ => Option.some ([] : Tree)) cmt.treeId).map
                  (fun data => { id := cmt.id, _message := m, tree_data := data }))) })) :=
  ⟨fun _ _ _ => rfl,
   (undecodable_commits_dropped
      (fun bs => if bs = ([] : List Nat) then Option.none else Option.some ("ok"))
      (fun _ => Option.some ([] : Tree))
      { head := HeadKind.Symbolic { name := ("refs/heads/main"), peeled := 9 },
        ancestors :=
          [Except.ok { id := 1, messageBytes := [], treeId := 5 },
           Except.ok { id := 2, messageBytes := [7], treeId := 5 }],
        objects := fun _ => Option.some ([] : Tree), cacheSize := 3 }
      [{ id := 1, messageBytes := [], treeId := 5 },
       { id := 2, messageBytes := [7], treeId := 5 }]
      (fun _ _ _ => rfl)).2
      { name := ("refs/heads/main"), peeled := 9 } rfl rfl rfl⟩

end SmartRelease
